import Mathlib

/-!
Verification of the columnar block model, wire envelope codec, row
deserialization bridge and callback-to-future bridge of a time-series
database client driver.

The embedding follows the Rust source:
  * `taos-query/src/common/raw/views/big_int_unsigned_view.rs` (`UBigIntView`)
  * `taos-query/src/common/raw/data.rs` (`raw_data_t`, `RawDataInner`, `RawData`)
  * `taos-query/src/common/raw/rows.rs` (`RowView` serde deserializer)
  * `taos-sys/src/query/future.rs` (`QueryFuture`)

Machine integers are modelled as `Nat` with explicit bounds where overflow
matters; byte buffers are `List Nat` of byte values; pointer reads of the
little-endian target are modelled as little-endian decoding.
-/

namespace TaosProof

/-- Little-endian decoding of a byte list into a natural number
(each byte is taken mod 256, as `u8` guarantees in the source). -/
def leDecode : List Nat → Nat
  | [] => 0
  | b :: bs => b % 256 + 256 * leDecode bs

/-- Little-endian encoding of a natural number into `n` bytes
(`u32::to_le_bytes`, `u16::to_le_bytes`, and the in-memory layout of an
unsigned integer on the little-endian target). -/
def leBytes : Nat → Nat → List Nat
  | 0, _ => []
  | n + 1, v => (v % 256) :: leBytes n (v / 256)

theorem leBytes_length (n v : Nat) : (leBytes n v).length = n := by
  induction n generalizing v with
  | zero => rfl
  | succ n ih => simp [leBytes, ih]

theorem leDecode_leBytes (n v : Nat) : leDecode (leBytes n v) = v % 2 ^ (8 * n) := by
  induction n generalizing v with
  | zero => simp [leBytes, leDecode, Nat.mod_one]
  | succ n ih =>
      simp only [leBytes, leDecode, ih]
      have h1 : 2 ^ (8 * (n + 1)) = 256 * 2 ^ (8 * n) := by ring
      rw [h1, Nat.mod_mul]
      omega

theorem leDecode_lt (bs : List Nat) : leDecode bs < 2 ^ (8 * bs.length) := by
  induction bs with
  | nil => simp [leDecode]
  | cons b bs ih =>
      simp only [leDecode, List.length_cons]
      have h1 : 2 ^ (8 * (bs.length + 1)) = 256 * 2 ^ (8 * bs.length) := by ring
      rw [h1]
      omega

theorem leBytes_leDecode (bs : List Nat) (hb : ∀ b ∈ bs, b < 256) :
    leBytes bs.length (leDecode bs) = bs := by
  induction bs with
  | nil => rfl
  | cons b bs ih =>
      have hb0 : b < 256 := hb b (List.mem_cons_self _ _)
      have hbs : ∀ x ∈ bs, x < 256 := fun x hx => hb x (List.mem_cons_of_mem _ hx)
      simp only [List.length_cons, leBytes, leDecode]
      have h1 : (b % 256 + 256 * leDecode bs) % 256 = b := by omega
      have h2 : (b % 256 + 256 * leDecode bs) / 256 = leDecode bs := by omega
      rw [h1, h2, ih hbs]

/-- One byte of a packed bitmap: bit `i` (least significant first) is the
`i`-th boolean of the chunk. -/
def bitsToByte (bs : List Bool) : Nat :=
  bs.foldr (fun b acc => (if b then 1 else 0) + 2 * acc) 0

/-- Pack a boolean sequence into bytes, 8 booleans per byte. -/
def packBits (bs : List Bool) : List Nat :=
  if hbs : bs = [] then []
  else bitsToByte (bs.take 8) :: packBits (bs.drop 8)
termination_by bs.length
decreasing_by
  have : bs.length ≠ 0 := fun hl => hbs (List.eq_nil_of_length_eq_zero hl)
  simp only [List.length_drop]
  omega

theorem packBits_length (bs : List Bool) : (packBits bs).length = (bs.length + 7) / 8 := by
  by_cases h : bs = []
  · subst h; rw [packBits]; simp
  · have hl : bs.length ≠ 0 := fun hl => h (List.eq_nil_of_length_eq_zero hl)
    rw [packBits]
    simp only [dif_neg h, List.length_cons, packBits_length (bs.drop 8), List.length_drop]
    omega
termination_by bs.length
decreasing_by
  simp only [List.length_drop]
  omega

/-- Modelled from the spec: `NullBits` (declared outside the provided sources,
in the views module) is "a bit-packed sequence of booleans, one per logical
row", where a set bit means the row is NULL.  The logical bit sequence is kept
as a `List Bool`; the byte packing `packBits` is applied at the wire boundary,
where the spec fixes the size as `ceil(n/8)` bytes. -/
structure NullBits where
  bits : List Bool

/-- Modelled from the spec: O(1) single-bit test of the packed mask; bit `row`
set means row `row` is NULL.  Unchecked in the source (`is_null_unchecked`). -/
def NullBits.is_null_unchecked (nb : NullBits) (row : Nat) : Bool :=
  nb.bits.getD row false

/-- Modelled from the spec: `NullBits::from_iter` packs one bit per boolean,
8 rows per byte. -/
def NullBits.ofBools (bs : List Bool) : NullBits := ⟨bs⟩

/-- Modelled from the spec: `NullBits::slice(range)` "returns the null mask
restricted to `range`, repacking bit offsets so the result is always
byte-aligned at its own bit 0". -/
def NullBits.slice (nb : NullBits) (s e : Nat) : NullBits :=
  ⟨(nb.bits.drop s).take (e - s)⟩

/-- The wire form of the bitmap: `ceil(n/8)` packed bytes. -/
def NullBits.toWireBytes (nb : NullBits) : List Nat := packBits nb.bits

/-- `UBigIntView` from `big_int_unsigned_view.rs`: a null bitmap plus a byte
buffer (`Bytes`) holding the rows as 8-byte unsigned integers in the
little-endian target's memory order. -/
structure UBigIntView where
  nulls : NullBits
  data : List Nat

/-- `ITEM_SIZE = size_of::<u64>()`. -/
def ITEM_SIZE : Nat := 8

namespace UBigIntView

/-- `len`: rows, `self.data.len() / size_of::<Item>()`. -/
def len (v : UBigIntView) : Nat := v.data.length / ITEM_SIZE

/-- `is_null_unchecked`: delegates to the bitmap. -/
def is_null_unchecked (v : UBigIntView) (row : Nat) : Bool :=
  v.nulls.is_null_unchecked row

/-- `is_null`: bounds-checked; returns `false` for `row >= len`. -/
def is_null (v : UBigIntView) (row : Nat) : Bool :=
  if row < v.len then v.is_null_unchecked row else false

/-- `get_raw_at`: the element at byte offset `index * ITEM_SIZE`, read as a
`u64` through a pointer cast (little-endian on the target). -/
def get_raw_at (v : UBigIntView) (index : Nat) : Nat :=
  leDecode ((v.data.drop (index * ITEM_SIZE)).take ITEM_SIZE)

/-- `get_unchecked`: `None` when the bitmap marks the row NULL, otherwise the
raw element. -/
def get_unchecked (v : UBigIntView) (row : Nat) : Option Nat :=
  if v.is_null_unchecked row then none else some (v.get_raw_at row)

/-- `get`: bounds-checked nullable access; `None` for `row >= len`. -/
def get (v : UBigIntView) (row : Nat) : Option Nat :=
  if row < v.len then v.get_unchecked row else none

/-- `iter().collect()` (`to_vec`): the iterator yields `get_unchecked row`
for each `row < len`, starting at row 0. -/
def to_vec (v : UBigIntView) : List (Option Nat) :=
  (List.range v.len).map v.get_unchecked

/-- `FromIterator<Option<u64>>`: one pass unzipping into nulls (absent ↦
`true`) and values (absent ↦ `Item::default()`, i.e. 0), the values then
reinterpreted as their in-memory bytes. -/
def from_iter (xs : List (Option Nat)) : UBigIntView :=
  { nulls := NullBits.ofBools (xs.map Option.isNone)
    data := xs.flatMap fun x => leBytes ITEM_SIZE (x.getD 0) }

/-- `slice(range)`: `None` when `range.start >= len`; clamps `range.end` to
`len`; `None` when the clamped range is empty; otherwise the sub-bitmap and
the sub-buffer `range.start * ITEM_SIZE .. range.end * ITEM_SIZE`. -/
def slice (v : UBigIntView) (s e : Nat) : Option UBigIntView :=
  if v.len ≤ s then none
  else
    let e' := if v.len ≤ e then v.len else e
    if e' - s = 0 then none
    else some { nulls := v.nulls.slice s e'
                data := (v.data.drop (s * ITEM_SIZE)).take ((e' - s) * ITEM_SIZE) }

/-- `Add`: concatenation by iterator chaining,
`from_iter(self.iter().chain(rhs.iter()))`. -/
def add (a b : UBigIntView) : UBigIntView :=
  from_iter (a.to_vec ++ b.to_vec)

/-- `write_raw_into`: writes the bitmap bytes, then the data bytes, and
returns the total count written. -/
def write_raw_into (v : UBigIntView) : List Nat × Nat :=
  let nulls := v.nulls.toWireBytes
  (nulls ++ v.data, nulls.length + v.data.length)

end UBigIntView

/-! ### List helper lemmas -/

theorem getD_drop_take {α : Type} (l : List α) (s k i : Nat) (d : α) (hi : i < k) :
    ((l.drop s).take k).getD i d = l.getD (s + i) d := by
  simp [List.getD_eq_getElem?_getD, List.getElem?_take, hi, List.getElem?_drop]

theorem flatMap_const_length {α β : Type} (f : α → List β) (k : Nat)
    (hf : ∀ a, (f a).length = k) (xs : List α) :
    (xs.flatMap f).length = k * xs.length := by
  induction xs with
  | nil => simp
  | cons x xs ih =>
      simp only [List.flatMap_cons, List.length_append, hf, ih, List.length_cons]
      ring

theorem flatMap_chunk {α β : Type} (f : α → List β) (k : Nat)
    (hf : ∀ a, (f a).length = k) (xs : List α) (i : Nat) (hi : i < xs.length) (a₀ : α) :
    ((xs.flatMap f).drop (i * k)).take k = f (xs.getD i a₀) := by
  induction xs generalizing i with
  | nil => simp at hi
  | cons x xs ih =>
      cases i with
      | zero =>
          simp only [List.flatMap_cons, Nat.zero_mul, List.drop_zero, List.getD_cons_zero]
          rw [← hf x, List.take_left]
      | succ i =>
          have h1 : (i + 1) * k = (f x).length + i * k := by rw [hf]; ring
          rw [List.flatMap_cons, h1, List.drop_append, List.getD_cons_succ]
          exact ih i (by simpa using hi)

/-! ### Facts about `from_iter` -/

theorem leBytes_item_length (x : Option Nat) : (leBytes ITEM_SIZE (x.getD 0)).length = ITEM_SIZE :=
  leBytes_length ITEM_SIZE (x.getD 0)

theorem UBigIntView.from_iter_data_length (xs : List (Option Nat)) :
    (UBigIntView.from_iter xs).data.length = ITEM_SIZE * xs.length :=
  flatMap_const_length _ ITEM_SIZE leBytes_item_length xs

theorem UBigIntView.from_iter_len (xs : List (Option Nat)) :
    (UBigIntView.from_iter xs).len = xs.length := by
  unfold UBigIntView.len
  rw [UBigIntView.from_iter_data_length]
  simp [ITEM_SIZE]

theorem UBigIntView.from_iter_is_null_unchecked (xs : List (Option Nat)) (i : Nat)
    (hi : i < xs.length) :
    (UBigIntView.from_iter xs).is_null_unchecked i = (xs.getD i none).isNone := by
  unfold UBigIntView.from_iter UBigIntView.is_null_unchecked NullBits.is_null_unchecked
    NullBits.ofBools
  have h1 : xs[i]? = some xs[i] := List.getElem?_eq_getElem hi
  simp [List.getD_eq_getElem?_getD, List.getElem?_map, h1]

theorem UBigIntView.from_iter_get_raw_at (xs : List (Option Nat)) (i : Nat)
    (hi : i < xs.length) :
    (UBigIntView.from_iter xs).get_raw_at i = (xs.getD i none).getD 0 % 2 ^ 64 := by
  unfold UBigIntView.from_iter UBigIntView.get_raw_at
  rw [flatMap_chunk _ ITEM_SIZE leBytes_item_length xs i hi none, leDecode_leBytes]
  norm_num [ITEM_SIZE]

theorem UBigIntView.from_iter_get_unchecked (xs : List (Option Nat)) (i : Nat)
    (hi : i < xs.length) (hv : (xs.getD i none).getD 0 < 2 ^ 64) :
    (UBigIntView.from_iter xs).get_unchecked i = xs.getD i none := by
  unfold UBigIntView.get_unchecked
  rw [UBigIntView.from_iter_is_null_unchecked xs i hi, UBigIntView.from_iter_get_raw_at xs i hi]
  cases hx : xs.getD i none with
  | none => simp
  | some v =>
      rw [hx] at hv
      simp only [Option.getD_some] at hv
      have hv' : v < 18446744073709551616 := by omega
      simp [Nat.mod_eq_of_lt hv']

theorem UBigIntView.from_iter_to_vec (xs : List (Option Nat))
    (hx : ∀ o ∈ xs, o.getD 0 < 2 ^ 64) :
    (UBigIntView.from_iter xs).to_vec = xs := by
  unfold UBigIntView.to_vec
  rw [UBigIntView.from_iter_len]
  apply List.ext_getElem
  · simp
  · intro i h1 h2
    have hi : i < xs.length := by simpa using h2
    have hmem : xs.getD i none ∈ xs := by
      rw [List.getD_eq_getElem?_getD, List.getElem?_eq_getElem hi]
      exact List.getElem_mem hi
    simp only [List.getElem_map, List.getElem_range]
    rw [UBigIntView.from_iter_get_unchecked xs i hi (hx _ hmem),
      List.getD_eq_getElem?_getD, List.getElem?_eq_getElem hi]
    rfl

/-! ### C3: `from_iter` builds the view faithfully -/

/-- C3: for a sequence of `n` nullable inputs, `from_iter` yields a view with
`len = n`; `is_null i` holds exactly when the `i`-th input is absent; `get i`
returns exactly the `i`-th input; and an absent input leaves the zero
placeholder in the value buffer while the bitmap alone records absence. -/
theorem ubigint_from_iter_spec (xs : List (Option Nat))
    (hx : ∀ o ∈ xs, o.getD 0 < 2 ^ 64) :
    (UBigIntView.from_iter xs).len = xs.length ∧
      (∀ i, i < xs.length →
        (UBigIntView.from_iter xs).is_null i = (xs.getD i none).isNone) ∧
      (∀ i, i < xs.length → (UBigIntView.from_iter xs).get i = xs.getD i none) ∧
      (∀ i, i < xs.length → xs.getD i none = none →
        (UBigIntView.from_iter xs).get_raw_at i = 0 ∧
          (UBigIntView.from_iter xs).is_null i = true) := by
  refine ⟨UBigIntView.from_iter_len xs, ?_, ?_, ?_⟩
  · intro i hi
    unfold UBigIntView.is_null
    rw [if_pos (by rw [UBigIntView.from_iter_len]; omega)]
    exact UBigIntView.from_iter_is_null_unchecked xs i hi
  · intro i hi
    have hmem : xs.getD i none ∈ xs := by
      rw [List.getD_eq_getElem?_getD, List.getElem?_eq_getElem hi]
      exact List.getElem_mem hi
    unfold UBigIntView.get
    rw [if_pos (by rw [UBigIntView.from_iter_len]; omega)]
    exact UBigIntView.from_iter_get_unchecked xs i hi (hx _ hmem)
  · intro i hi hnone
    constructor
    · rw [UBigIntView.from_iter_get_raw_at xs i hi, hnone]
      rfl
    · unfold UBigIntView.is_null
      rw [if_pos (by rw [UBigIntView.from_iter_len]; omega)]
      rw [UBigIntView.from_iter_is_null_unchecked xs i hi, hnone]
      rfl

/-- C3 witness: the view built from `[some 7, none, some (2^64 - 1)]`. -/
theorem ubigint_from_iter_spec_witness :
    (∀ o ∈ [some 7, none, some (2 ^ 64 - 1)], Option.getD o 0 < 2 ^ 64) ∧
      ((UBigIntView.from_iter [some 7, none, some (2 ^ 64 - 1)]).len = 3 ∧
        (UBigIntView.from_iter [some 7, none, some (2 ^ 64 - 1)]).is_null 1 = true ∧
        (UBigIntView.from_iter [some 7, none, some (2 ^ 64 - 1)]).get 0 = some 7 ∧
        (UBigIntView.from_iter [some 7, none, some (2 ^ 64 - 1)]).get 1 = none ∧
        (UBigIntView.from_iter [some 7, none, some (2 ^ 64 - 1)]).get 2 = some (2 ^ 64 - 1) ∧
        (UBigIntView.from_iter [some 7, none, some (2 ^ 64 - 1)]).get_raw_at 1 = 0) := by
  have hx : ∀ o ∈ [some 7, none, some (2 ^ 64 - 1)], Option.getD o 0 < 2 ^ 64 := by decide
  have h := ubigint_from_iter_spec [some 7, none, some (2 ^ 64 - 1)] hx
  refine ⟨hx, h.1, ?_, ?_, ?_, ?_, ?_⟩
  · rw [h.2.1 1 (by decide)]; rfl
  · rw [h.2.2.1 0 (by decide)]; rfl
  · rw [h.2.2.1 1 (by decide)]; rfl
  · rw [h.2.2.1 2 (by decide)]; rfl
  · exact (h.2.2.2 1 (by decide) rfl).1

/-! ### C7: concatenation -/

theorem UBigIntView.to_vec_length (v : UBigIntView) : v.to_vec.length = v.len := by
  simp [UBigIntView.to_vec]

theorem UBigIntView.to_vec_bounded (v : UBigIntView) :
    ∀ o ∈ v.to_vec, o.getD 0 < 2 ^ 64 := by
  intro o ho
  unfold UBigIntView.to_vec at ho
  simp only [List.mem_map, List.mem_range] at ho
  obtain ⟨i, _, rfl⟩ := ho
  unfold UBigIntView.get_unchecked
  split
  · simp
  · simp only [Option.getD_some, UBigIntView.get_raw_at]
    have h1 := leDecode_lt ((v.data.drop (i * ITEM_SIZE)).take ITEM_SIZE)
    have h2 : ((v.data.drop (i * ITEM_SIZE)).take ITEM_SIZE).length ≤ 8 := by
      simp [ITEM_SIZE, List.length_take]
    calc leDecode ((v.data.drop (i * ITEM_SIZE)).take ITEM_SIZE)
        < 2 ^ (8 * ((v.data.drop (i * ITEM_SIZE)).take ITEM_SIZE).length) := h1
      _ ≤ 2 ^ 64 := Nat.pow_le_pow_right (by omega) (by omega)

/-- C7: `a + b` concatenates: the resulting view's nullable values are `a`'s
values followed by `b`'s values, `(a + b).len = a.len + b.len`, and concretely
`[1, null, 3] + [null, 5] = [1, null, 3, null, 5]`. -/
theorem ubigint_add_spec :
    (∀ a b : UBigIntView,
      (a.add b).to_vec = a.to_vec ++ b.to_vec ∧ (a.add b).len = a.len + b.len) ∧
      ((UBigIntView.from_iter [some 1, none, some 3]).add
          (UBigIntView.from_iter [none, some 5])).to_vec =
        [some 1, none, some 3, none, some 5] := by
  have key : ∀ a b : UBigIntView,
      (a.add b).to_vec = a.to_vec ++ b.to_vec ∧ (a.add b).len = a.len + b.len := by
    intro a b
    have hbound : ∀ o ∈ a.to_vec ++ b.to_vec, o.getD 0 < 2 ^ 64 := by
      intro o ho
      rcases List.mem_append.mp ho with h | h
      · exact a.to_vec_bounded o h
      · exact b.to_vec_bounded o h
    constructor
    · unfold UBigIntView.add
      exact UBigIntView.from_iter_to_vec _ hbound
    · unfold UBigIntView.add
      rw [UBigIntView.from_iter_len, List.length_append, UBigIntView.to_vec_length,
        UBigIntView.to_vec_length]
  refine ⟨key, ?_⟩
  rw [(key _ _).1, UBigIntView.from_iter_to_vec _ (by decide),
    UBigIntView.from_iter_to_vec _ (by decide)]
  rfl

/-! ### C5: wire layout of a column -/

/-- C5: for a view of `n` rows (bitmap of `n` bits, whole elements in the
buffer), `write_raw_into` emits the `ceil(n/8)` bitmap bytes first, the
`n * ITEM_SIZE` value bytes second, and returns exactly that total. -/
theorem ubigint_write_raw_into_spec (v : UBigIntView)
    (hn : v.nulls.bits.length = v.len) (hd : v.data.length % ITEM_SIZE = 0) :
    v.write_raw_into.1 = v.nulls.toWireBytes ++ v.data ∧
      v.nulls.toWireBytes.length = (v.len + 7) / 8 ∧
      v.data.length = v.len * ITEM_SIZE ∧
      v.write_raw_into.2 = (v.len + 7) / 8 + v.len * ITEM_SIZE := by
  have h1 : v.nulls.toWireBytes.length = (v.len + 7) / 8 := by
    rw [NullBits.toWireBytes, packBits_length, hn]
  have h2 : v.data.length = v.len * ITEM_SIZE := by
    unfold UBigIntView.len
    simp only [ITEM_SIZE] at hd ⊢
    omega
  refine ⟨rfl, h1, h2, ?_⟩
  show v.nulls.toWireBytes.length + v.data.length = (v.len + 7) / 8 + v.len * ITEM_SIZE
  rw [h1, h2]

/-- C5 witness: the three-row view `[some 1, none, some 3]`. -/
theorem ubigint_write_raw_into_spec_witness :
    ((UBigIntView.from_iter [some 1, none, some 3]).nulls.bits.length =
        (UBigIntView.from_iter [some 1, none, some 3]).len ∧
      (UBigIntView.from_iter [some 1, none, some 3]).data.length % ITEM_SIZE = 0) ∧
      (UBigIntView.from_iter [some 1, none, some 3]).write_raw_into.2 =
        ((UBigIntView.from_iter [some 1, none, some 3]).len + 7) / 8 +
          (UBigIntView.from_iter [some 1, none, some 3]).len * ITEM_SIZE :=
  ⟨⟨by decide, by decide⟩,
    (ubigint_write_raw_into_spec (UBigIntView.from_iter [some 1, none, some 3])
      (by decide) (by decide)).2.2.2⟩

/-! ### C2: slicing law -/

theorem UBigIntView.sliced_len (v : UBigIntView) (s e' : Nat) (he : e' ≤ v.len) (hs : s ≤ e') :
    (UBigIntView.mk (v.nulls.slice s e')
      ((v.data.drop (s * ITEM_SIZE)).take ((e' - s) * ITEM_SIZE))).len = e' - s := by
  unfold UBigIntView.len at he ⊢
  simp only [List.length_take, List.length_drop]
  have h1 : e' * ITEM_SIZE ≤ v.data.length := by
    have h2 : e' * ITEM_SIZE ≤ (v.data.length / ITEM_SIZE) * ITEM_SIZE :=
      Nat.mul_le_mul_right _ he
    have h3 : (v.data.length / ITEM_SIZE) * ITEM_SIZE ≤ v.data.length :=
      Nat.div_mul_le_self _ _
    omega
  simp only [ITEM_SIZE] at h1 ⊢
  omega

theorem UBigIntView.sliced_get_unchecked (v : UBigIntView) (s e' i : Nat)
    (hi : i < e' - s) :
    (UBigIntView.mk (v.nulls.slice s e')
        ((v.data.drop (s * ITEM_SIZE)).take ((e' - s) * ITEM_SIZE))).get_unchecked i =
      v.get_unchecked (s + i) := by
  have hnull : (UBigIntView.mk (v.nulls.slice s e')
      ((v.data.drop (s * ITEM_SIZE)).take ((e' - s) * ITEM_SIZE))).is_null_unchecked i =
      v.is_null_unchecked (s + i) := by
    unfold UBigIntView.is_null_unchecked NullBits.is_null_unchecked NullBits.slice
    exact getD_drop_take v.nulls.bits s (e' - s) i false hi
  have hdata : (UBigIntView.mk (v.nulls.slice s e')
      ((v.data.drop (s * ITEM_SIZE)).take ((e' - s) * ITEM_SIZE))).get_raw_at i =
      v.get_raw_at (s + i) := by
    unfold UBigIntView.get_raw_at
    congr 1
    rw [List.drop_take, List.take_take]
    have h8 : i * ITEM_SIZE + ITEM_SIZE ≤ (e' - s) * ITEM_SIZE := by
      simp only [ITEM_SIZE]; omega
    have hmin : min ITEM_SIZE ((e' - s) * ITEM_SIZE - i * ITEM_SIZE) = ITEM_SIZE := by
      simp only [ITEM_SIZE] at h8 ⊢
      omega
    rw [hmin, List.drop_drop]
    have hsum : s * ITEM_SIZE + i * ITEM_SIZE = (s + i) * ITEM_SIZE := by
      simp only [ITEM_SIZE]; omega
    rw [hsum]
  unfold UBigIntView.get_unchecked
  rw [hnull, hdata]

/-- C2: `slice(s..e)` returns `none` when `s ≥ len` or when the range, after
clamping the end to `len`, is empty; otherwise it returns a view whose value
sequence is `iter().skip(s).take(min e len - s)` of the original. -/
theorem ubigint_slice_spec (v : UBigIntView) (s e : Nat) :
    (v.len ≤ s ∨ min e v.len ≤ s → v.slice s e = none) ∧
      (s < min e v.len →
        ∃ w, v.slice s e = some w ∧
          w.to_vec = (v.to_vec.drop s).take (min e v.len - s)) := by
  have he' : (if v.len ≤ e then v.len else e) = min e v.len := by
    split_ifs with h <;> omega
  constructor
  · intro h
    unfold UBigIntView.slice
    rcases h with h | h
    · rw [if_pos h]
    · by_cases hs : v.len ≤ s
      · rw [if_pos hs]
      · rw [if_neg hs]
        simp only [he']
        rw [if_pos (by omega)]
  · intro h
    have hslt : s < v.len := by omega
    unfold UBigIntView.slice
    rw [if_neg (by omega)]
    simp only [he']
    rw [if_neg (by omega)]
    refine ⟨_, rfl, ?_⟩
    have hem : min e v.len ≤ v.len := by omega
    have hw := UBigIntView.sliced_len v s (min e v.len) hem (by omega)
    apply List.ext_getElem
    · simp only [UBigIntView.to_vec, List.length_map, List.length_range, hw,
        List.length_take, List.length_drop]
      omega
    · intro i h1 h2
      have hi : i < min e v.len - s := by
        simpa [UBigIntView.to_vec, hw] using h1
      have hsi : s + i < v.len := by omega
      simp only [UBigIntView.to_vec, List.getElem_take, List.getElem_drop,
        List.getElem_map, List.getElem_range, hw]
      rw [UBigIntView.sliced_get_unchecked v s (min e v.len) i hi]

/-- C2 witness: slicing `[some 1, none, some 3, some 4]` with range `1..9`
(end clamped to 4) and with the degenerate range `5..6`. -/
theorem ubigint_slice_spec_witness :
    (1 < min 9 (UBigIntView.from_iter [some 1, none, some 3, some 4]).len ∧
      ∃ w, (UBigIntView.from_iter [some 1, none, some 3, some 4]).slice 1 9 = some w ∧
        w.to_vec = (((UBigIntView.from_iter [some 1, none, some 3, some 4]).to_vec.drop 1).take
          (min 9 (UBigIntView.from_iter [some 1, none, some 3, some 4]).len - 1))) ∧
      ((UBigIntView.from_iter [some 1, none, some 3, some 4]).len ≤ 5 ∨
          min 6 (UBigIntView.from_iter [some 1, none, some 3, some 4]).len ≤ 5) ∧
        (UBigIntView.from_iter [some 1, none, some 3, some 4]).slice 5 6 = none :=
  ⟨⟨by decide,
      (ubigint_slice_spec (UBigIntView.from_iter [some 1, none, some 3, some 4]) 1 9).2
        (by decide)⟩,
    ⟨by decide,
      (ubigint_slice_spec (UBigIntView.from_iter [some 1, none, some 3, some 4]) 5 6).1
        (by decide)⟩⟩

/-! ### Wire envelope: `raw_data_t`, `RawDataInner`, `RawData` (`data.rs`) -/

/-- `RAW_PTR_OFFSET = size_of::<u32>() + size_of::<u16>()`. -/
def RAW_PTR_OFFSET : Nat := 6

/-- `raw_data_t`: a length, a type tag and a pointer to the payload bytes;
the pointed-to foreign memory is modelled as the byte list `raw`. -/
structure raw_data_t where
  raw : List Nat
  raw_len : Nat
  raw_type : Nat

/-- `raw_data_t::to_bytes`: a fresh buffer of `raw_len + 6` bytes, the two
header fields little-endian at the front, then `raw_len` bytes copied from
the pointer. -/
def raw_data_t.to_bytes (r : raw_data_t) : List Nat :=
  leBytes 4 r.raw_len ++ leBytes 2 r.raw_type ++ r.raw.take r.raw_len

/-- `RawDataInner`: either a foreign-memory view or an owned buffer. -/
inductive RawDataInner where
  | raw (r : raw_data_t)
  | data (bytes : List Nat)

/-- `RawDataInner::raw_len`: the field for the foreign variant; for the owned
variant, a `u32` read of the buffer's first 4 bytes (little-endian target). -/
def RawDataInner.raw_len : RawDataInner → Nat
  | .raw r => r.raw_len
  | .data bytes => leDecode (bytes.take 4)

/-- `RawDataInner::raw_type`: the field, or a `u16` read at offset 4. -/
def RawDataInner.raw_type : RawDataInner → Nat
  | .raw r => r.raw_type
  | .data bytes => leDecode ((bytes.drop 4).take 2)

/-- The `raw_len()` payload bytes reachable from the `raw()` pointer: the
pointed-to memory for the foreign variant, the buffer past `RAW_PTR_OFFSET`
for the owned variant. -/
def RawDataInner.payloadBytes : RawDataInner → List Nat
  | .raw r => r.raw.take r.raw_len
  | .data bytes => (bytes.drop RAW_PTR_OFFSET).take (leDecode (bytes.take 4))

/-- `RawData` wraps the inner representation. -/
structure RawData where
  inner : RawDataInner

theorem RawDataInner.raw_len_data (bytes : List Nat) :
    (RawDataInner.data bytes).raw_len = leDecode (bytes.take 4) := rfl

theorem RawDataInner.raw_type_data (bytes : List Nat) :
    (RawDataInner.data bytes).raw_type = leDecode ((bytes.drop 4).take 2) := rfl

theorem RawDataInner.payloadBytes_data (bytes : List Nat) :
    (RawDataInner.data bytes).payloadBytes =
      (bytes.drop RAW_PTR_OFFSET).take (leDecode (bytes.take 4)) := rfl

theorem leBytes_leDecode_of_length (n : Nat) (bs : List Nat) (hl : bs.length = n)
    (hb : ∀ b ∈ bs, b < 256) : leBytes n (leDecode bs) = bs := by
  subst hl
  exact leBytes_leDecode bs hb

/-! ### C6: the two envelope representations are observationally equal -/

/-- C6: for a `raw_data_t` value `r` (with `u32`/`u16`-bounded header fields),
the envelope backed by `r` directly and the envelope backed by the owned
buffer `r.to_bytes()` agree on `raw_len`, `raw_type`, and on the `raw_len`
payload bytes reachable from `raw()`. -/
theorem rawdata_repr_equiv (r : raw_data_t)
    (h1 : r.raw_len < 2 ^ 32) (h2 : r.raw_type < 2 ^ 16) :
    (RawDataInner.data r.to_bytes).raw_len = (RawDataInner.raw r).raw_len ∧
      (RawDataInner.data r.to_bytes).raw_type = (RawDataInner.raw r).raw_type ∧
      (RawDataInner.data r.to_bytes).payloadBytes = (RawDataInner.raw r).payloadBytes := by
  have htake4 : r.to_bytes.take 4 = leBytes 4 r.raw_len := by
    unfold raw_data_t.to_bytes
    rw [List.append_assoc]
    exact List.take_left' (leBytes_length 4 r.raw_len)
  have hdrop4 : r.to_bytes.drop 4 = leBytes 2 r.raw_type ++ r.raw.take r.raw_len := by
    unfold raw_data_t.to_bytes
    rw [List.append_assoc]
    exact List.drop_left' (leBytes_length 4 r.raw_len)
  have hrawlen : (RawDataInner.data r.to_bytes).raw_len = r.raw_len := by
    rw [RawDataInner.raw_len_data, htake4, leDecode_leBytes]
    exact Nat.mod_eq_of_lt (by omega)
  refine ⟨hrawlen, ?_, ?_⟩
  · rw [RawDataInner.raw_type_data, hdrop4, List.take_left' (leBytes_length 2 r.raw_type),
      leDecode_leBytes]
    exact Nat.mod_eq_of_lt (by omega)
  · have hdrop6 : r.to_bytes.drop RAW_PTR_OFFSET = r.raw.take r.raw_len := by
      have h6 : RAW_PTR_OFFSET = 4 + 2 := rfl
      rw [h6, ← List.drop_drop, hdrop4]
      exact List.drop_left' (leBytes_length 2 r.raw_type)
    show (r.to_bytes.drop RAW_PTR_OFFSET).take (leDecode (r.to_bytes.take 4)) =
      r.raw.take r.raw_len
    rw [hdrop6, htake4, leDecode_leBytes, Nat.mod_eq_of_lt (show r.raw_len < 2 ^ (8 * 4) by omega),
      List.take_take, Nat.min_self]

/-- C6 witness: a concrete three-byte payload with tag 21 and length 3. -/
theorem rawdata_repr_equiv_witness :
    ((3 : Nat) < 2 ^ 32 ∧ (21 : Nat) < 2 ^ 16) ∧
      ((RawDataInner.data (raw_data_t.mk [10, 20, 30] 3 21).to_bytes).raw_len =
          (RawDataInner.raw (raw_data_t.mk [10, 20, 30] 3 21)).raw_len ∧
        (RawDataInner.data (raw_data_t.mk [10, 20, 30] 3 21).to_bytes).raw_type =
          (RawDataInner.raw (raw_data_t.mk [10, 20, 30] 3 21)).raw_type ∧
        (RawDataInner.data (raw_data_t.mk [10, 20, 30] 3 21).to_bytes).payloadBytes =
          (RawDataInner.raw (raw_data_t.mk [10, 20, 30] 3 21)).payloadBytes) :=
  ⟨⟨by norm_num, by norm_num⟩,
    rawdata_repr_equiv (raw_data_t.mk [10, 20, 30] 3 21) (by norm_num) (by norm_num)⟩

/-! ### C4: envelope decoding -/

/-- The error kind surfaced on a short read. -/
inductive IOErrorKind where
  | unexpectedEof
deriving DecidableEq

/-- Modelled from the spec: the transport byte source offers `read_exact`-style
access and "short reads are a hard error (`UnexpectedEof`), not a
partial-result condition" (the `InlinableRead` / async-read helpers are
declared outside the provided sources).  `readExact n` consumes exactly `n`
bytes or fails without producing anything. -/
def readExact (n : Nat) (bs : List Nat) : Except IOErrorKind (List Nat × List Nat) :=
  if n ≤ bs.length then .ok (bs.take n, bs.drop n) else .error .unexpectedEof

/-- Modelled from the spec: `read_u32` reads exactly 4 bytes and decodes them
little-endian. -/
def read_u32 (bs : List Nat) : Except IOErrorKind (Nat × List Nat) :=
  (readExact 4 bs).map fun p => (leDecode p.1, p.2)

/-- Modelled from the spec: `read_u16` reads exactly 2 bytes, little-endian. -/
def read_u16 (bs : List Nat) : Except IOErrorKind (Nat × List Nat) :=
  (readExact 2 bs).map fun p => (leDecode p.1, p.2)

/-- `Inlinable::read_inlined` for `RawData` (blocking variant): read the
length, read the type tag, extend the buffer with both fields little-endian,
resize by `len` and `read_exact` the payload into the tail. -/
def readInlined (bs : List Nat) : Except IOErrorKind (RawData × List Nat) :=
  match read_u32 bs with
  | .error e => .error e
  | .ok (len, bs1) =>
    match read_u16 bs1 with
    | .error e => .error e
    | .ok (ty, bs2) =>
      match readExact len bs2 with
      | .error e => .error e
      | .ok (payload, rest) =>
          .ok (⟨.data (leBytes 4 len ++ leBytes 2 ty ++ payload)⟩, rest)

/-- `AsyncInlinable::read_inlined` for `RawData`: the non-blocking variant has
the same byte-level semantics (`read_u32_le`, `read_u16_le`, `read_exact`),
differing only in the suspension model. -/
def readInlinedAsync (bs : List Nat) : Except IOErrorKind (RawData × List Nat) :=
  match read_u32 bs with
  | .error e => .error e
  | .ok (len, bs1) =>
    match read_u16 bs1 with
    | .error e => .error e
    | .ok (ty, bs2) =>
      match readExact len bs2 with
      | .error e => .error e
      | .ok (payload, rest) =>
          .ok (⟨.data (leBytes 4 len ++ leBytes 2 ty ++ payload)⟩, rest)

/-- C4: both decoding variants agree; decoding reads a 4-byte LE length, a
2-byte LE tag, then exactly `len` payload bytes, and yields a self-contained
`len + 6`-byte buffer (header re-embedded at the front) whose accessors
return the read header and payload; a source exhausted before `6 + len`
bytes fails with `UnexpectedEof` and produces no envelope. -/
theorem rawdata_read_inlined_spec (bs : List Nat) (hb : ∀ b ∈ bs, b < 256) :
    readInlinedAsync bs = readInlined bs ∧
      (bs.length < 6 + leDecode (bs.take 4) → readInlined bs = .error .unexpectedEof) ∧
      (6 + leDecode (bs.take 4) ≤ bs.length →
        readInlined bs =
            .ok (⟨.data (bs.take (6 + leDecode (bs.take 4)))⟩,
              bs.drop (6 + leDecode (bs.take 4))) ∧
          (bs.take (6 + leDecode (bs.take 4))).length = leDecode (bs.take 4) + 6 ∧
          (RawDataInner.data (bs.take (6 + leDecode (bs.take 4)))).raw_len =
            leDecode (bs.take 4) ∧
          (RawDataInner.data (bs.take (6 + leDecode (bs.take 4)))).raw_type =
            leDecode ((bs.drop 4).take 2) ∧
          (RawDataInner.data (bs.take (6 + leDecode (bs.take 4)))).payloadBytes =
            (bs.drop 6).take (leDecode (bs.take 4))) := by
  refine ⟨rfl, ?_, ?_⟩
  · intro h
    unfold readInlined read_u32 read_u16 readExact
    by_cases h4 : 4 ≤ bs.length
    · rw [if_pos h4]
      simp only [Except.map]
      by_cases h6 : 2 ≤ (bs.drop 4).length
      · rw [if_pos h6]
        simp only [Except.map]
        rw [if_neg (by simp only [List.length_drop] at h6 ⊢; omega)]
      · rw [if_neg h6]
    · rw [if_neg h4]
      simp only [Except.map]
  · intro h
    have h4 : 4 ≤ bs.length := by omega
    have hd4 : (bs.drop 4).length = bs.length - 4 := List.length_drop 4 bs
    have h2 : 2 ≤ (bs.drop 4).length := by omega
    have hpay : leDecode (bs.take 4) ≤ ((bs.drop 4).drop 2).length := by
      simp only [List.length_drop]
      omega
    have hstep : readInlined bs =
        .ok (⟨.data (leBytes 4 (leDecode (bs.take 4)) ++
            leBytes 2 (leDecode ((bs.drop 4).take 2)) ++
            ((bs.drop 4).drop 2).take (leDecode (bs.take 4)))⟩,
          ((bs.drop 4).drop 2).drop (leDecode (bs.take 4))) := by
      unfold readInlined read_u32 read_u16 readExact
      rw [if_pos h4]
      simp only [Except.map]
      rw [if_pos h2]
      simp only [Except.map]
      rw [if_pos hpay]
    have hb4 : leBytes 4 (leDecode (bs.take 4)) = bs.take 4 := by
      refine leBytes_leDecode_of_length 4 (bs.take 4) (by simp [List.length_take]; omega) ?_
      intro b hmem
      exact hb b (List.mem_of_mem_take hmem)
    have hb2 : leBytes 2 (leDecode ((bs.drop 4).take 2)) = (bs.drop 4).take 2 := by
      refine leBytes_leDecode_of_length 2 ((bs.drop 4).take 2)
        (by simp [List.length_take, List.length_drop]; omega) ?_
      intro b hmem
      exact hb b (List.mem_of_mem_drop (List.mem_of_mem_take hmem))
    have hdd : (bs.drop 4).drop 2 = bs.drop 6 := by
      rw [List.drop_drop]
    have hbuf : leBytes 4 (leDecode (bs.take 4)) ++
        leBytes 2 (leDecode ((bs.drop 4).take 2)) ++
        ((bs.drop 4).drop 2).take (leDecode (bs.take 4)) =
        bs.take (6 + leDecode (bs.take 4)) := by
      rw [hb4, hb2, hdd, List.append_assoc]
      have hsplit6 : bs.take 4 ++ (bs.drop 4).take 2 = bs.take 6 := by
        have := List.take_add bs 4 2
        simpa using this.symm
      rw [← List.append_assoc, hsplit6]
      have := List.take_add bs 6 (leDecode (bs.take 4))
      exact this.symm
    have hrest : ((bs.drop 4).drop 2).drop (leDecode (bs.take 4)) =
        bs.drop (6 + leDecode (bs.take 4)) := by
      rw [hdd, List.drop_drop]
    have htt4 : (bs.take (6 + leDecode (bs.take 4))).take 4 = bs.take 4 := by
      rw [List.take_take]
      congr 1
      omega
    refine ⟨by rw [hstep, hbuf, hrest], ?_, ?_, ?_, ?_⟩
    · simp only [List.length_take]
      omega
    · rw [RawDataInner.raw_len_data, htt4]
    · rw [RawDataInner.raw_type_data, List.drop_take, List.take_take]
      congr 2
      omega
    · rw [RawDataInner.payloadBytes_data, htt4]
      have houter : (bs.take (6 + leDecode (bs.take 4))).drop RAW_PTR_OFFSET =
          (bs.drop 6).take (leDecode (bs.take 4)) := by
        have hoff : RAW_PTR_OFFSET = 6 := rfl
        rw [hoff, List.drop_take]
        congr 1
        omega
      rw [houter, List.take_take, Nat.min_self]

/-- C4 witness: a complete frame with length 3 and tag 21 followed by one
extra byte, and the same frame truncated mid-payload. -/
theorem rawdata_read_inlined_spec_witness :
    (∀ b ∈ [3, 0, 0, 0, 21, 0, 10, 20, 30, 99], b < 256) ∧
      readInlined [3, 0, 0, 0, 21, 0, 10, 20, 30, 99] =
        .ok (⟨.data ([3, 0, 0, 0, 21, 0, 10, 20, 30, 99].take
            (6 + leDecode ([3, 0, 0, 0, 21, 0, 10, 20, 30, 99].take 4)))⟩,
          [3, 0, 0, 0, 21, 0, 10, 20, 30, 99].drop
            (6 + leDecode ([3, 0, 0, 0, 21, 0, 10, 20, 30, 99].take 4))) ∧
      readInlined [3, 0, 0, 0, 21, 0, 10] = .error .unexpectedEof :=
  ⟨by decide,
    ((rawdata_read_inlined_spec [3, 0, 0, 0, 21, 0, 10, 20, 30, 99] (by decide)).2.2
      (by decide)).1,
    (rawdata_read_inlined_spec [3, 0, 0, 0, 21, 0, 10] (by decide)).2.1 (by decide)⟩

/-! ### Row deserialization bridge (`rows.rs`) -/

/-- A column value as seen by the bridge: the null marker or a primitive
(only the integer primitive is needed here; `BorrowedValue` in the source
carries one variant per column type). -/
inductive Val where
  | nullv
  | intv (n : Int)
deriving DecidableEq

/-- `BorrowedValue::is_null`. -/
def Val.is_null : Val → Bool
  | .nullv => true
  | .intv _ => false

/-- Modelled from the spec: a `RawBlock` (declared outside the provided
sources) pairs a schema of column names with columns sharing one row count,
with invariant `columns.len() == schema.len()`; a `RowView` is a cursor
(current column index) over one row, carrying the row's values in column
order. -/
structure RowView where
  fields : List String
  vals : List Val
  col : Nat
deriving DecidableEq

/-- `ncols()` seen from the row: the number of column values. -/
def RowView.ncols (rv : RowView) : Nat := rv.vals.length

/-- `Iterator::next` for `RowView`: `None` once the cursor reaches `ncols`,
otherwise the column name and value at the cursor, advancing it.  (The source
reads the name with `get_unchecked` under the schema/columns length
invariant; an absent name is modelled as the empty string.) -/
def RowView.next (rv : RowView) : Option ((String × Val) × RowView) :=
  if rv.ncols ≤ rv.col then none
  else some ((rv.fields.getD rv.col "", rv.vals.getD rv.col .nullv),
    { rv with col := rv.col + 1 })

/-- `walk_next`: `next` with the name discarded. -/
def RowView.walk_next (rv : RowView) : Option (Val × RowView) :=
  rv.next.map fun p => (p.1.2, p.2)

/-- `peek_name`: `fields.get(col)`, without advancing. -/
def RowView.peek_name (rv : RowView) : Option String := rv.fields[rv.col]?

/-- Deserialization errors of the bridge (the source wraps them as custom
`DeError` messages). -/
inductive DeErr where
  | missingValue
  | nullValue
deriving DecidableEq

/-- Modelled from the spec: deserializing one `BorrowedValue` into a
non-optional `i32` (the value's own serde `Deserializer` impl is outside the
provided sources): "a null value requested as a non-optional field is a
deserialization error"; an in-range integer is taken as itself. -/
def Val.deserializeI32 : Val → Except DeErr Int
  | .nullv => .error .nullValue
  | .intv n => .ok n

/-- Primitive access through the row deserializer (`i32` is forwarded to
`deserialize_any`): `walk_next`, then deserialize the value; an exhausted
row errors. -/
def RowView.deserializeI32 (rv : RowView) : Except DeErr (Int × RowView) :=
  match rv.walk_next with
  | some (v, rv') => v.deserializeI32.map fun n => (n, rv')
  | none => .error .missingValue

/-- `deserialize_option`: `walk_next`; a null value is visited as absent
(`visit_none`), a present value as `visit_some` of the value; an exhausted
row errors. -/
def RowView.deserializeOptionI32 (rv : RowView) : Except DeErr (Option Int × RowView) :=
  match rv.walk_next with
  | some (v, rv') =>
      if v.is_null then .ok (none, rv')
      else v.deserializeI32.map fun n => (some n, rv')
  | none => .error .missingValue

/-- The deserialization of the claim's record `(a : i32, b : Option i32)`
from one row: the derived visitor consumes the two entries in schema order,
field `a` as a non-optional `i32`, field `b` as an optional one. -/
def RowView.deserializeRecordAB (rv : RowView) : Except DeErr (Int × Option Int) :=
  match rv.deserializeI32 with
  | .error e => .error e
  | .ok (a, rv1) =>
      match rv1.deserializeOptionI32 with
      | .error e => .error e
      | .ok (b, _) => .ok (a, b)

/-- The observable of the compound entry points: which visitor method runs,
with the access object it receives. -/
inductive VisitorCall where
  | seq (rv : RowView)
  | map (rv : RowView)
deriving DecidableEq

/-- `deserialize_seq`: always `visitor.visit_seq(self)`. -/
def RowView.deserializeSeqCall (rv : RowView) : VisitorCall := .seq rv

/-- `deserialize_map`: "No field names, just access as sequence." — sequence
style when the schema is empty, map style otherwise. -/
def RowView.deserializeMapCall (rv : RowView) : VisitorCall :=
  if rv.fields.isEmpty then .seq rv else .map rv

/-- `deserialize_struct`: delegates to `deserialize_map`. -/
def RowView.deserializeStructCall (rv : RowView) : VisitorCall :=
  rv.deserializeMapCall

/-- What sequence-style access yields: `SeqAccess::next_element` repeatedly
calls `next` and discards the name, so values are visited positionally in
column order. -/
def RowView.seqItems (rv : RowView) : List Val :=
  if _h : rv.col < rv.vals.length then
    rv.vals.getD rv.col .nullv :: RowView.seqItems { rv with col := rv.col + 1 }
  else []
termination_by rv.vals.length - rv.col

/-- What map-style access yields: `MapAccess::next_key` peeks the schema name
(`fields.get(col)`) and stops when the schema is exhausted; `next_value`
deserializes the value under the cursor and advances, erroring when no value
remains. -/
def RowView.mapItems (rv : RowView) : Except DeErr (List (String × Val)) :=
  if _hcol : rv.col < rv.fields.length then
    if _hv : rv.col < rv.vals.length then
      (RowView.mapItems { rv with col := rv.col + 1 }).map
        fun rest => (rv.fields.getD rv.col "", rv.vals.getD rv.col .nullv) :: rest
    else .error .missingValue
  else .ok []
termination_by rv.fields.length - rv.col

theorem RowView.seqItems_eq (rv : RowView) : rv.seqItems = rv.vals.drop rv.col := by
  rw [RowView.seqItems]
  by_cases h : rv.col < rv.vals.length
  · rw [dif_pos h, RowView.seqItems_eq { rv with col := rv.col + 1 }]
    rw [List.getD_eq_getElem?_getD, List.getElem?_eq_getElem h]
    exact (List.drop_eq_getElem_cons h).symm
  · rw [dif_neg h]
    exact (List.drop_eq_nil_of_le (by omega)).symm
termination_by rv.vals.length - rv.col
decreasing_by
  omega

theorem RowView.mapItems_eq (rv : RowView) (hinv : rv.fields.length ≤ rv.vals.length) :
    rv.mapItems = .ok ((rv.fields.drop rv.col).zip (rv.vals.drop rv.col)) := by
  rw [RowView.mapItems]
  by_cases hcol : rv.col < rv.fields.length
  · have hv : rv.col < rv.vals.length := by omega
    rw [dif_pos hcol, dif_pos hv,
      RowView.mapItems_eq { rv with col := rv.col + 1 } (by simpa using hinv)]
    simp only [Except.map]
    rw [List.drop_eq_getElem_cons hcol, List.drop_eq_getElem_cons hv]
    simp only [List.getD_eq_getElem?_getD, List.getElem?_eq_getElem hcol,
      List.getElem?_eq_getElem hv, Option.getD_some]
    rfl
  · rw [dif_neg hcol, List.drop_eq_nil_of_le (by omega)]
    rfl
termination_by rv.fields.length - rv.col
decreasing_by
  omega

/-! ### C8: empty schema degrades map-style to sequence-style -/

/-- C8: with an empty schema, `deserialize_map` (and `deserialize_struct`,
which delegates to it) performs exactly the sequence-style deserialization —
the same `visit_seq` call on the same access object, whose items are the
values positionally in column order; with a non-empty schema the visitor
receives map access yielding name/value pairs. -/
theorem rowview_deserialize_map_empty_schema (rv : RowView) :
    (rv.fields = [] →
      rv.deserializeMapCall = rv.deserializeSeqCall ∧
        rv.deserializeStructCall = rv.deserializeSeqCall ∧
        rv.deserializeSeqCall = .seq rv ∧
        rv.seqItems = rv.vals.drop rv.col) ∧
      (rv.fields ≠ [] →
        rv.deserializeMapCall = .map rv ∧
          (rv.fields.length ≤ rv.vals.length →
            rv.mapItems = .ok ((rv.fields.drop rv.col).zip (rv.vals.drop rv.col)))) := by
  constructor
  · intro h
    have hemp : rv.fields.isEmpty = true := by rw [h]; rfl
    refine ⟨?_, ?_, rfl, RowView.seqItems_eq rv⟩
    · unfold RowView.deserializeMapCall RowView.deserializeSeqCall
      rw [if_pos hemp]
    · unfold RowView.deserializeStructCall RowView.deserializeMapCall
        RowView.deserializeSeqCall
      rw [if_pos hemp]
  · intro h
    have hemp : ¬rv.fields.isEmpty = true := by
      cases hf : rv.fields with
      | nil => exact absurd hf h
      | cons a l => simp
    refine ⟨?_, fun hinv => RowView.mapItems_eq rv hinv⟩
    unfold RowView.deserializeMapCall
    rw [if_neg hemp]

/-- C8 witness: a nameless two-column row consumed sequence-style, and a named
two-column row consumed map-style. -/
theorem rowview_deserialize_map_empty_schema_witness :
    ((RowView.mk [] [.intv 1, .nullv] 0).deserializeMapCall =
        (RowView.mk [] [.intv 1, .nullv] 0).deserializeSeqCall ∧
      (RowView.mk [] [.intv 1, .nullv] 0).deserializeStructCall =
        (RowView.mk [] [.intv 1, .nullv] 0).deserializeSeqCall ∧
      (RowView.mk [] [.intv 1, .nullv] 0).deserializeSeqCall =
        .seq (RowView.mk [] [.intv 1, .nullv] 0) ∧
      (RowView.mk [] [.intv 1, .nullv] 0).seqItems = [.intv 1, .nullv]) ∧
      ((RowView.mk ["a", "b"] [.intv 42, .nullv] 0).deserializeMapCall =
          .map (RowView.mk ["a", "b"] [.intv 42, .nullv] 0) ∧
        ((RowView.mk ["a", "b"] [.intv 42, .nullv] 0).fields.length ≤
            (RowView.mk ["a", "b"] [.intv 42, .nullv] 0).vals.length →
          (RowView.mk ["a", "b"] [.intv 42, .nullv] 0).mapItems =
            .ok ((["a", "b"].drop 0).zip ([Val.intv 42, Val.nullv].drop 0)))) :=
  ⟨(rowview_deserialize_map_empty_schema (RowView.mk [] [.intv 1, .nullv] 0)).1 rfl,
    (rowview_deserialize_map_empty_schema
      (RowView.mk ["a", "b"] [.intv 42, .nullv] 0)).2 (by decide)⟩

/-! ### C9: null handling through the bridge -/

/-- C9: a null value requested optionally yields the absent value, a present
value yields `some` of it, a null value requested as a non-optional `i32`
fails with the nullness error; concretely, the row `[42, null]` under schema
`["a", "b"]` deserializes to the record `(42, none)`, while reading `b`
non-optionally fails. -/
theorem rowview_option_null_spec :
    (∀ rv rv' : RowView, rv.walk_next = some (.nullv, rv') →
        rv.deserializeOptionI32 = .ok (none, rv')) ∧
      (∀ (rv rv' : RowView) (n : Int), rv.walk_next = some (.intv n, rv') →
        rv.deserializeOptionI32 = .ok (some n, rv')) ∧
      (∀ rv rv' : RowView, rv.walk_next = some (.nullv, rv') →
        rv.deserializeI32 = .error .nullValue) ∧
      (RowView.mk ["a", "b"] [.intv 42, .nullv] 0).deserializeRecordAB = .ok (42, none) ∧
      (RowView.mk ["a", "b"] [.intv 42, .nullv] 1).deserializeI32 = .error .nullValue := by
  refine ⟨?_, ?_, ?_, by rfl, by rfl⟩
  · intro rv rv' hw
    unfold RowView.deserializeOptionI32
    rw [hw]
    rfl
  · intro rv rv' n hw
    unfold RowView.deserializeOptionI32
    rw [hw]
    rfl
  · intro rv rv' hw
    unfold RowView.deserializeI32
    rw [hw]
    rfl

/-- C9 witness: the three universally quantified parts instantiated on the
concrete `["a", "b"]` / `[42, null]` row. -/
theorem rowview_option_null_spec_witness :
    ((RowView.mk ["a", "b"] [.intv 42, .nullv] 1).walk_next =
        some (.nullv, RowView.mk ["a", "b"] [.intv 42, .nullv] 2) ∧
      (RowView.mk ["a", "b"] [.intv 42, .nullv] 1).deserializeOptionI32 =
        .ok (none, RowView.mk ["a", "b"] [.intv 42, .nullv] 2)) ∧
      ((RowView.mk ["a", "b"] [.intv 42, .nullv] 0).walk_next =
          some (.intv 42, RowView.mk ["a", "b"] [.intv 42, .nullv] 1) ∧
        (RowView.mk ["a", "b"] [.intv 42, .nullv] 0).deserializeOptionI32 =
          .ok (some 42, RowView.mk ["a", "b"] [.intv 42, .nullv] 1)) ∧
      (RowView.mk ["a", "b"] [.intv 42, .nullv] 1).deserializeI32 = .error .nullValue :=
  ⟨⟨by decide,
      rowview_option_null_spec.1 (RowView.mk ["a", "b"] [.intv 42, .nullv] 1)
        (RowView.mk ["a", "b"] [.intv 42, .nullv] 2) (by decide)⟩,
    ⟨by decide,
      rowview_option_null_spec.2.1 (RowView.mk ["a", "b"] [.intv 42, .nullv] 0)
        (RowView.mk ["a", "b"] [.intv 42, .nullv] 1) 42 (by decide)⟩,
    rowview_option_null_spec.2.2.1 (RowView.mk ["a", "b"] [.intv 42, .nullv] 1)
      (RowView.mk ["a", "b"] [.intv 42, .nullv] 2) (by decide)⟩

/-! ### C10: out-of-bounds `is_null` -/

/-- C10: for every column view `v` and every row index `row ≥ v.len`, the
bounds-checked `is_null` returns `false` — indistinguishable from an in-bounds
present value — while the bounds-checked `get` returns `none` for the same
index. -/
theorem ubigint_is_null_out_of_bounds (v : UBigIntView) (row : Nat) (h : v.len ≤ row) :
    v.is_null row = false ∧ v.get row = none := by
  unfold UBigIntView.is_null UBigIntView.get
  rw [if_neg (by omega), if_neg (by omega)]
  exact ⟨rfl, rfl⟩

/-- C10 witness: a two-row view probed at row 5. -/
theorem ubigint_is_null_out_of_bounds_witness :
    (UBigIntView.from_iter [some 1, none]).len ≤ 5 ∧
      ((UBigIntView.from_iter [some 1, none]).is_null 5 = false ∧
        (UBigIntView.from_iter [some 1, none]).get 5 = none) :=
  ⟨by decide, ubigint_is_null_out_of_bounds (UBigIntView.from_iter [some 1, none]) 5 (by decide)⟩

/-! ### Callback-to-future bridge (`future.rs`) -/

/-- The shared `State` between `QueryFuture` and the native callback: the
result handle (a pointer, modelled numerically; null is 0), the status code
and the completion flag. -/
structure QueryState where
  result : Nat
  code : Int
  done : Bool
deriving DecidableEq

/-- The state installed by `QueryFuture::new`: null handle, code 0, not
done. -/
def QueryState.initial : QueryState := ⟨0, 0, false⟩

/-- A poll's outcome: ready with the settled handle and code, or pending. -/
inductive PollOutcome where
  | ready (result : Nat) (code : Int)
  | pending
deriving DecidableEq

/-- One `QueryFuture::poll` against the shared state observed at that poll:
when `done` it returns the settled result and issues no native call;
otherwise it boxes the waker, issues `raw.query_a` (the second component
counts the native calls issued by this poll) and returns `Pending`. -/
def pollOnce (s : QueryState) : PollOutcome × Nat :=
  if s.done then (.ready s.result s.code, 0) else (.pending, 1)

/-- Native calls issued over a sequence of polls, given the state observed
at each poll. -/
def nativeCallsIssued (states : List QueryState) : Nat :=
  (states.map fun s => (pollOnce s).2).sum

/-- C1 (evaluating the code at the failing input): a future polled twice
before the native callback fires returns `Pending` both times yet issues the
native call at each of the two polls — two calls, where the claim allows at
most one per future lifetime; polls on a completed state do issue none. -/
theorem queryFuture_poll_reissues_native_call :
    (pollOnce QueryState.initial).1 = .pending ∧
      (pollOnce QueryState.initial).2 = 1 ∧
      nativeCallsIssued [QueryState.initial, QueryState.initial] = 2 ∧
      (∀ s : QueryState, s.done = true → (pollOnce s).2 = 0) := by
  refine ⟨rfl, rfl, rfl, ?_⟩
  intro s hs
  simp [pollOnce, hs]

/-- C1 witness: the completed-state conjunct instantiated at a settled
state. -/
theorem queryFuture_poll_reissues_native_call_witness :
    (QueryState.mk 5 0 true).done = true ∧ (pollOnce (QueryState.mk 5 0 true)).2 = 0 :=
  ⟨rfl, queryFuture_poll_reissues_native_call.2.2.2 (QueryState.mk 5 0 true) rfl⟩

end TaosProof
